import Mathlib

/-!
Verification of the COBOL repository structure & call-graph extractor
(`repo_cobol_parser.py`).

The development shallowly embeds the program: file texts are `List Char`
(line terminators modelled as `'\n'`, which is what the concrete inputs
use); the regex heuristics of the source are implemented as executable
matchers over `List Char`; the stateful per-file line classifier
(`CobolParser.parse`) is a fold over the file's lines carrying the
parser's state; the repo passes (`build_index`, `parse_repo`) work over a
list of `(path, content)` pairs, where `content : Option (List Char)` is
`none` when reading the file raises an `OSError` (`read_text` with
`errors="ignore"` suppresses decode errors but not I/O errors).

Character classes model Python's `re` classes for ASCII input (the
repository's source files are ASCII): `\w` is `[A-Za-z0-9_]`, `\s` is
`[ \t\n\r\v\f]`, `\d` is `[0-9]`.  Case-insensitive matching (`re.I`)
is modelled by `charEqCI`: every literal is written lowercase and a
subject character matches it if it is equal to it or is its ASCII
uppercase variant.
-/

/-- Python `\w` (ASCII): letters, digits, underscore. -/
def isWordChar (c : Char) : Bool :=
  decide ((65 ≤ c.toNat ∧ c.toNat ≤ 90) ∨ (97 ≤ c.toNat ∧ c.toNat ≤ 122) ∨
    (48 ≤ c.toNat ∧ c.toNat ≤ 57) ∨ c.toNat = 95)

/-- The class `[\w-]` used for identifiers in every pattern of the source. -/
def isWordHyphen (c : Char) : Bool :=
  isWordChar c || decide (c.toNat = 45)

/-- Python `\s` (ASCII): space, tab, newline, carriage return, vertical tab, form feed. -/
def isSpaceCh (c : Char) : Bool :=
  decide (c.toNat = 32 ∨ c.toNat = 9 ∨ c.toNat = 10 ∨ c.toNat = 13 ∨
    c.toNat = 11 ∨ c.toNat = 12)

/-- Python `\d` (ASCII): decimal digits. -/
def isDigitCh (c : Char) : Bool :=
  decide (48 ≤ c.toNat ∧ c.toNat ≤ 57)

/-- The class `[A-Za-z0-9()V-]` of `_VAR_RE`'s PIC-clause group. -/
def isPicChar (c : Char) : Bool :=
  decide ((65 ≤ c.toNat ∧ c.toNat ≤ 90) ∨ (97 ≤ c.toNat ∧ c.toNat ≤ 122) ∨
    (48 ≤ c.toNat ∧ c.toNat ≤ 57) ∨ c.toNat = 40 ∨ c.toNat = 41 ∨ c.toNat = 45)

/-- Case-insensitive match of subject char `c` against a lowercase literal
char `l` (`re.I`, ASCII): `c` is `l` itself or its uppercase form. -/
def charEqCI (l c : Char) : Bool :=
  c == l || decide (65 ≤ c.toNat ∧ c.toNat ≤ 90 ∧ c.toNat + 32 = l.toNat)

/-- Match a literal (written lowercase, matched case-insensitively per
`re.I`) as a prefix, returning the rest of the input. -/
def matchLit : List Char → List Char → Option (List Char)
  | [], cs => some cs
  | _ :: _, [] => none
  | l :: ls, c :: cs => if charEqCI l c then matchLit ls cs else none

/-- The `int` value of a digit character. -/
def digitVal (c : Char) : Nat := c.toNat - 48

/-- Python `str.upper()` for ASCII, per character. -/
def toUpperCh (c : Char) : Char :=
  if 97 ≤ c.toNat ∧ c.toNat ≤ 122 then Char.ofNat (c.toNat - 32) else c

/-- Python `str.lower()` for ASCII, per character. -/
def toLowerCh (c : Char) : Char :=
  if 65 ≤ c.toNat ∧ c.toNat ≤ 90 then Char.ofNat (c.toNat + 32) else c

/-- Model of `m[1].upper()`: uppercase a captured identifier. -/
def upperStr (cs : List Char) : String := (cs.map toUpperCh).asString

/-- Model of `s.lower()`: lowercase a string (used for index keys and lookups). -/
def lowerStr (s : String) : String := (s.toList.map toLowerCh).asString

/-!
The regex heuristics of the source, as deterministic matchers.

Each matcher implements the exact backtracking semantics of the Python
pattern it embeds.  For the anchored patterns the greedy sub-patterns
(`\s*`, `\s+`, `[\w-]*`, `[\w-]+`) are followed by patterns over disjoint
character classes, so maximal munch is equivalent to Python's
backtracking search; the one pattern where backtracking is observable is
`_VAR_RE` (its greedy name group `([\w-]+)` interacts with the lazy
`.*?` and the `\b` before `PIC`), and `varTryName` implements that
backtracking explicitly, longest name first.
-/

/-- The pattern `_DIV_RE = ^\s*(\w[\w-]*)\s+DIVISION\b` (re.I), used with `.match`.
Returns the captured identifier. -/
def divMatch (cs0 : List Char) : Option (List Char) :=
  match cs0.dropWhile isSpaceCh with
  | [] => none
  | c :: rest =>
    if isWordChar c then
      let tok := c :: rest.takeWhile isWordHyphen
      match rest.dropWhile isWordHyphen with
      | [] => none
      | r :: rem =>
        if isSpaceCh r then
          match matchLit ("division".toList) (rem.dropWhile isSpaceCh) with
          | some after =>
            match after with
            | [] => some tok
            | a :: _ => if isWordChar a then none else some tok
          | none => none
        else none
    else none

/-- The pattern `_SEC_RE = ^\s*(\w[\w-]*)\s+SECTION\.` (re.I), used with `.match`.
Returns the captured identifier. -/
def secMatch (cs0 : List Char) : Option (List Char) :=
  match cs0.dropWhile isSpaceCh with
  | [] => none
  | c :: rest =>
    if isWordChar c then
      let tok := c :: rest.takeWhile isWordHyphen
      match rest.dropWhile isWordHyphen with
      | [] => none
      | r :: rem =>
        if isSpaceCh r then
          match matchLit ("section".toList) (rem.dropWhile isSpaceCh) with
          | some ('.' :: _) => some tok
          | _ => none
        else none
    else none

/-- The pattern `_PROGID_RE = ^\s*PROGRAM-ID\.\s+([\w-]+)\.` (re.I); anchored match at
one position (the `re.M` flag only matters for `sniff_program_id`'s
`search`, see `sniffScan`).  Returns the captured name. -/
def progidMatch (cs0 : List Char) : Option (List Char) :=
  match matchLit ("program-id.".toList) (cs0.dropWhile isSpaceCh) with
  | none => none
  | some rest =>
    match rest with
    | [] => none
    | r :: rem =>
      if isSpaceCh r then
        let cs2 := rem.dropWhile isSpaceCh
        let name := cs2.takeWhile isWordHyphen
        if name.isEmpty then none
        else
          match cs2.dropWhile isWordHyphen with
          | '.' :: _ => some name
          | _ => none
      else none

/-- The pattern `_PAR_RE = ^\s*([\w-]+)\.\s*$` (re.I), used with `.match`. -/
def parMatch (cs0 : List Char) : Option (List Char) :=
  let cs1 := cs0.dropWhile isSpaceCh
  let name := cs1.takeWhile isWordHyphen
  if name.isEmpty then none
  else
    match cs1.dropWhile isWordHyphen with
    | '.' :: rest => if (rest.dropWhile isSpaceCh).isEmpty then some name else none
    | _ => none

/-- The lazy scan `.*?\bPIC\b\s+([A-Za-z0-9()V-]+)` of `_VAR_RE`: starting
right after the name group (whose final character is `prev`), advance one
character at a time (Python `.` does not match a newline) and at each
position try `\bPIC\b\s+` followed by the PIC-clause group. -/
def scanPIC (prev : Char) (cs : List Char) : Option (List Char) :=
  match
    (if isWordChar prev then none
     else
       match matchLit ("pic".toList) cs with
       | none => none
       | some rest =>
         match rest with
         | [] => none
         | a :: rem =>
           if isWordChar a then none
           else if isSpaceCh a then
             let pic := (rem.dropWhile isSpaceCh).takeWhile isPicChar
             if pic.isEmpty then none else some pic
           else none)
  with
  | some pic => some pic
  | none =>
    match cs with
    | [] => none
    | c :: rest => if c == '\n' then none else scanPIC c rest

/-- Backtracking over the length of `_VAR_RE`'s greedy name group: try the
longest prefix of the `[\w-]+` run first (Python tries greedy matches
longest-first), re-running the lazy `scanPIC` on the remainder each time
the group is shortened.  `revName` is the group candidate reversed. -/
def varTryName (revName : List Char) (rest : List Char) : Option (List Char × List Char) :=
  match revName with
  | [] => none
  | c :: revPrev =>
    match scanPIC c rest with
    | some pic => some (revName.reverse, pic)
    | none => varTryName revPrev (c :: rest)

/-- The pattern `_VAR_RE = ^\s*(\d{2})\s+([\w-]+).*?\bPIC\b\s+([A-Za-z0-9()V-]+)`
(re.I), used with `.match`.  Returns `(int(level), name, pic)`. -/
def varMatch (cs0 : List Char) : Option (Nat × List Char × List Char) :=
  match cs0.dropWhile isSpaceCh with
  | d1 :: d2 :: rest =>
    if isDigitCh d1 && isDigitCh d2 then
      match rest with
      | [] => none
      | r :: rem =>
        if isSpaceCh r then
          let cs2 := rem.dropWhile isSpaceCh
          let run := cs2.takeWhile isWordHyphen
          match varTryName run.reverse (cs2.dropWhile isWordHyphen) with
          | some (name, pic) => some (digitVal d1 * 10 + digitVal d2, name, pic)
          | none => none
        else none
    else none
  | _ => none

/-- The pattern `_CALL_RE = \bCALL\s+\"?([\w-]+)\"?` (re.I) tried at one position;
`prev` is the character before the position (`none` at the string start),
used for the `\b` check. -/
def callAttempt (prev : Option Char) (cs : List Char) : Option (List Char) :=
  if (match prev with | some pc => isWordChar pc | none => false) then none
  else
    match matchLit ("call".toList) cs with
    | none => none
    | some rest =>
      match rest with
      | [] => none
      | r :: rem =>
        if isSpaceCh r then
          let cs2 := rem.dropWhile isSpaceCh
          let cs3 := match cs2 with | '"' :: t => t | _ => cs2
          let name := cs3.takeWhile isWordHyphen
          if name.isEmpty then none else some name
        else none

/-- The pattern `_PERF_RE = \bPERFORM\s+([\w-]+)` (re.I) tried at one position. -/
def perfAttempt (prev : Option Char) (cs : List Char) : Option (List Char) :=
  if (match prev with | some pc => isWordChar pc | none => false) then none
  else
    match matchLit ("perform".toList) cs with
    | none => none
    | some rest =>
      match rest with
      | [] => none
      | r :: rem =>
        if isSpaceCh r then
          let name := (rem.dropWhile isSpaceCh).takeWhile isWordHyphen
          if name.isEmpty then none else some name
        else none

/-- Model of `re.search`: try the single-position attempt at every position, left to
right, carrying the previous character for `\b` checks. -/
def searchFrom (f : Option Char → List Char → Option (List Char))
    (prev : Option Char) (cs : List Char) : Option (List Char) :=
  match f prev cs with
  | some r => some r
  | none =>
    match cs with
    | [] => none
    | c :: rest => searchFrom f (some c) rest

/-- Model of `_CALL_RE.search(strip)`. -/
def callSearch (cs : List Char) : Option (List Char) := searchFrom callAttempt none cs

/-- Model of `_PERF_RE.search(strip)`. -/
def perfSearch (cs : List Char) : Option (List Char) := searchFrom perfAttempt none cs

/-!  File-text utilities. -/

/-- Model of `str.splitlines()`, with `'\n'` as the (modelled) line terminator:
no entry is produced for a terminator that ends the text. -/
def splitlinesAux (cur : List Char) : List Char → List (List Char)
  | [] => [cur.reverse]
  | c :: cs =>
    if c == '\n' then
      cur.reverse :: (match cs with | [] => [] | _ :: _ => splitlinesAux [] cs)
    else splitlinesAux (c :: cur) cs

/-- Model of `str.splitlines()` (empty text yields no lines). -/
def splitlines : List Char → List (List Char)
  | [] => []
  | c :: cs => splitlinesAux [] (c :: cs)

/-- The suffixes of a text that start right after a `'\n'`, in text
order. -/
def lineTailsAux : List Char → List (List Char)
  | [] => []
  | c :: cs => if c == '\n' then cs :: lineTailsAux cs else lineTailsAux cs

/-- The suffixes of a text that start at a line start (position `0` and
every position right after a `'\n'`) — the positions where `^` can match
under `re.M`, in leftmost-first order. -/
def lineTails (text : List Char) : List (List Char) :=
  text :: lineTailsAux text

/-- Model of `str.strip()` (ASCII whitespace). -/
def stripChars (cs : List Char) : List Char :=
  (((cs.dropWhile isSpaceCh).reverse).dropWhile isSpaceCh).reverse

/-- Model of `raw.lstrip().startswith(("*", "*>"))`: a line is a comment iff its
first non-whitespace character is `*` (`"*>"` starts with `"*"`). -/
def isCommentLine (raw : List Char) : Bool :=
  match raw.dropWhile isSpaceCh with
  | '*' :: _ => true
  | _ => false

/-- Model of `pathlib.PurePath.stem`: the final path component without its last
suffix (a suffix needs a dot that is not the component's first char). -/
def stem (p : String) : String :=
  let name := ((p.toList.reverse.takeWhile (fun c => !(c == '/'))).reverse)
  let ext := name.reverse.takeWhile (fun c => !(c == '.'))
  if ext.length = name.length then name.asString
  else if ext.length + 1 = name.length then name.asString
  else (name.take (name.length - ext.length - 1)).asString

/-!  Data model (§3 of the specification, from the dict payloads the
source builds). -/

/-- One `dict(level=…, name=…, pic=…)` appended to a data section. -/
structure DataItem where
  level : Nat
  name : String
  pic : String
deriving DecidableEq, Repr

/-- One `dict(type=…, target=…, line=…)` appended to a paragraph's
`statements`; `type` is `"CALL"` or `"PERFORM"`. -/
structure Stmt where
  type : String
  target : String
  line : Nat
deriving DecidableEq, Repr

/-- A raw call edge as appended to `CobolParser.calls`. -/
structure CallEdge where
  from_file : String
  from_paragraph : String
  line : Nat
  to_program : String
deriving DecidableEq, Repr

/-- A call edge after pass 2 of `parse_repo` attached `to_file`
(`None` when the target is not in the program index). -/
structure ResolvedEdge extends CallEdge where
  to_file : Option String
deriving DecidableEq, Repr

/-- The state of `CobolParser.parse`: the instance attributes of
`CobolParser` (`program_id`, `divisions`, `data_sections`, `paragraphs`,
`calls`) together with the loop's local variables `div`, `sec`, `para`.
The Python `dict`s (`data_sections`, `paragraphs`) are modelled as
insertion-ordered association lists with the usual dict semantics:
lookup by key, update in place, new keys appended at the end. -/
structure ParseState where
  program_id : String
  divisions : List String
  data_sections : List (String × List DataItem)
  paragraphs : List (String × List Stmt)
  calls : List CallEdge
  div : Option String
  sec : Option String
  para : Option String
deriving DecidableEq, Repr

/-- Dict lookup (`d[k]` / `d.get(k)`). -/
def alookup {α : Type} : List (String × α) → String → Option α
  | [], _ => none
  | (k, v) :: m, q => if k = q then some v else alookup m q

/-- Model of `self.data_sections[sec].append(item)` on a `defaultdict(list)`:
append to the existing entry, creating an empty one (at the end, per dict
insertion order) on first touch. -/
def aappendItem (m : List (String × List DataItem)) (k : String) (it : DataItem) :
    List (String × List DataItem) :=
  match m with
  | [] => [(k, [it])]
  | (k', v) :: m' => if k' = k then (k', v ++ [it]) :: m' else (k', v) :: aappendItem m' k it

/-- Model of `self.paragraphs[para] = dict(statements=[])`: overwrite the entry (in
place) or append a new one. -/
def asetPara (m : List (String × List Stmt)) (k : String) : List (String × List Stmt) :=
  match m with
  | [] => [(k, [])]
  | (k', v) :: m' => if k' = k then (k', []) :: m' else (k', v) :: asetPara m' k

/-- Model of `self.paragraphs[para]["statements"].append(stmt)` (the key is always
present when this runs: `para` is only ever set alongside the creation of
its entry). -/
def aappendStmt (m : List (String × List Stmt)) (k : String) (s : Stmt) :
    List (String × List Stmt) :=
  match m with
  | [] => []
  | (k', v) :: m' => if k' = k then (k', v ++ [s]) :: m' else (k', v) :: aappendStmt m' k s

/-!  The line classifier (`CobolParser.parse`, lines 68–119 of the
source).  `classifyLine` performs the comment/blank skip and the first
three (state-independent) pattern checks in the source's priority order;
`parseLine` is the whole per-line step. -/

/-- The classification of one raw line by the priority chain of
`CobolParser.parse` that does not depend on the parser state. -/
inductive LineClass where
  | skip
  | divHdr (d : String)
  | secHdr (s : String)
  | progId (n : String)
  | other (strip : List Char)
deriving DecidableEq, Repr

/-- Comment/blank skipping and the `_DIV_RE` / `_SEC_RE` / `_PROGID_RE`
checks, in the source's order (`continue` after the first hit).  Division
and section names are uppercased as in the source (`m[1].upper()`). -/
def classifyLine (raw : List Char) : LineClass :=
  if isCommentLine raw then .skip
  else
    let strip := stripChars raw
    if strip.isEmpty then .skip
    else
      match divMatch strip with
      | some tok => .divHdr (upperStr tok)
      | none =>
        match secMatch strip with
        | some tok => .secHdr (upperStr tok)
        | none =>
          match progidMatch strip with
          | some nm => .progId nm.asString
          | none => .other strip

/-- The `CALL` / `PERFORM` statement detection on a line that is inside an
open paragraph `p` of the procedure division (both regexes are tried
independently; a line can produce one statement for each). -/
def procStmts (path : String) (st : ParseState) (lineno : Nat) (strip : List Char)
    (p : String) : ParseState :=
  let st1 :=
    match callSearch strip with
    | some tgt =>
      { st with
        paragraphs := aappendStmt st.paragraphs p ⟨"CALL", tgt.asString, lineno⟩,
        calls := st.calls ++ [⟨path, p, lineno, tgt.asString⟩] }
    | none => st
  match perfSearch strip with
  | some tgt =>
    { st1 with paragraphs := aappendStmt st1.paragraphs p ⟨"PERFORM", tgt.asString, lineno⟩ }
  | none => st1

/-- The state-dependent tail of the classifier: the data-item branch
(guarded by `div == "DATA" and sec`; a captured section name is never the
empty string, so Python's truthiness test on `sec` is `sec is not None`)
and the procedure-division branch. -/
def dataOrProc (path : String) (st : ParseState) (lineno : Nat) (strip : List Char) :
    ParseState :=
  if st.div = some "DATA" then
    match st.sec, varMatch strip with
    | some s, some (lvl, nm, pic) =>
      { st with data_sections := aappendItem st.data_sections s ⟨lvl, nm.asString, pic.asString⟩ }
    | _, _ => st
  else if st.div = some "PROCEDURE" then
    match parMatch strip with
    | some nm =>
      { st with para := some nm.asString, paragraphs := asetPara st.paragraphs nm.asString }
    | none =>
      match st.para with
      | none => st
      | some p => procStmts path st lineno strip p
  else st

/-- One iteration of the loop of `CobolParser.parse`. -/
def parseLine (path : String) (st : ParseState) (lineno : Nat) (raw : List Char) :
    ParseState :=
  match classifyLine raw with
  | .skip => st
  | .divHdr d =>
    { st with
      div := some d, sec := none, para := none,
      divisions := if d ∈ st.divisions then st.divisions else st.divisions ++ [d] }
  | .secHdr s => { st with sec := some s }
  | .progId nm => { st with program_id := nm }
  | .other strip => dataOrProc path st lineno strip

/-- The loop of `CobolParser.parse` from a given state and line number. -/
def parseLinesFrom (path : String) (st : ParseState) (lineno : Nat) :
    List (List Char) → ParseState
  | [] => st
  | l :: ls => parseLinesFrom path (parseLine path st lineno l) (lineno + 1) ls

/-- Model of `CobolParser.__init__`: `program_id` defaults to `path.stem`, all
collections empty, the loop locals `div`/`sec`/`para` start as `None`. -/
def initState (path : String) : ParseState :=
  ⟨stem path, [], [], [], [], none, none, none⟩

/-- Model of `CobolParser(path)` followed by `parse()` on a text that was read
successfully: fold the classifier over `text.splitlines()` with line
numbers from 1 (`enumerate(…, 1)`). -/
def parseLines (path : String) (text : List Char) : ParseState :=
  parseLinesFrom path (initState path) 1 (splitlines text)

/-!  The program-identifier sniffer (`sniff_program_id`, lines 35–42). -/

/-- Model of `_PROGID_RE.search(text)` under `re.I | re.M`: try the anchored
pattern at every line start, leftmost first (at any other position the
`^` fails).  The whitespace of `\s*`/`\s+` can cross newlines, so a match
may span lines. -/
def sniffScan : Bool → List Char → Option (List Char)
  | true, cs =>
    (match progidMatch cs with
     | some n => some n
     | none =>
       match cs with
       | [] => none
       | c :: rest => sniffScan (c == '\n') rest)
  | false, cs =>
    match cs with
    | [] => none
    | c :: rest => sniffScan (c == '\n') rest

/-- Model of `sniff_program_id`: `None` when reading the file raised, otherwise the
first match's captured name (or `None` when the pattern occurs nowhere). -/
def sniff_program_id (content : Option (List Char)) : Option String :=
  match content with
  | none => none
  | some text => (sniffScan true text).map List.asString

/-!  Repo-level passes (`build_index`, lines 135–140, and `parse_repo`,
lines 146–165).  A repository is the list of `(path, content)` pairs that
`rglob("*.cbl")` enumerates, `content = none` for an unreadable file. -/

/-- Model of `idx[pid.lower()] = f`: dict insert, overwriting in place. -/
def dinsert (m : List (String × String)) (k v : String) : List (String × String) :=
  match m with
  | [] => [(k, v)]
  | (k', v') :: m' => if k' = k then (k, v) :: m' else (k', v') :: dinsert m' k v

/-- Model of `build_index`: sniff every file; files yielding an identifier map its
lowercased form to their path, later files overwriting earlier ones. -/
def build_index (files : List (String × Option (List Char))) : List (String × String) :=
  go [] files
where
  go (idx : List (String × String)) : List (String × Option (List Char)) → List (String × String)
  | [] => idx
  | (p, c) :: fs =>
    match sniff_program_id c with
    | some pid => go (dinsert idx (lowerStr pid) p) fs
    | none => go idx fs

/-- Pass 1 of `parse_repo`: parse every file in order.  `parse()` calls
`path.read_text` with no exception handling, so an unreadable file raises
and the whole pass aborts (modelled as `Except.error ()`). -/
def parseAll : List (String × Option (List Char)) →
    Except Unit (List (String × ParseState))
  | [] => .ok []
  | (p, c) :: fs =>
    match c with
    | none => .error ()
    | some text =>
      match parseAll fs with
      | .ok rest => .ok ((p, parseLines p text) :: rest)
      | .error e => .error e

/-- Pass 2 of `parse_repo`: for every raw edge of every parsed file, in
order, attach `to_file` by looking the lowercased target up in the
program index; the edge itself is always kept. -/
def resolveAll (idx : List (String × String)) (structs : List (String × ParseState)) :
    List ResolvedEdge :=
  ((structs.map (fun pr => pr.2.calls)).flatten).map
    (fun e => ⟨e, alookup idx (lowerStr e.to_program)⟩)

/-- Model of `parse_repo` (JSON emission omitted — out of scope): build the index,
parse every file, then resolve all edges.  An unreadable file makes
pass 1 raise, aborting the run with no output. -/
def parse_repo (files : List (String × Option (List Char))) :
    Except Unit (List (String × ParseState) × List ResolvedEdge) :=
  let idx := build_index files
  match parseAll files with
  | .ok structs => .ok (structs, resolveAll idx structs)
  | .error e => .error e

/-!  Helper lemmas: which state components each branch of the classifier
can change. -/

theorem procStmts_fields (path : String) (st : ParseState) (n : Nat) (strip : List Char)
    (p : String) :
    (procStmts path st n strip p).program_id = st.program_id ∧
    (procStmts path st n strip p).divisions = st.divisions ∧
    (procStmts path st n strip p).data_sections = st.data_sections ∧
    (procStmts path st n strip p).div = st.div ∧
    (procStmts path st n strip p).sec = st.sec ∧
    (procStmts path st n strip p).para = st.para := by
  unfold procStmts
  cases callSearch strip <;> cases perfSearch strip <;> simp

theorem dataOrProc_fields (path : String) (st : ParseState) (n : Nat) (strip : List Char) :
    (dataOrProc path st n strip).program_id = st.program_id ∧
    (dataOrProc path st n strip).divisions = st.divisions ∧
    (dataOrProc path st n strip).div = st.div ∧
    (dataOrProc path st n strip).sec = st.sec := by
  unfold dataOrProc
  repeat' split
  any_goals simp
  exact ⟨(procStmts_fields _ _ _ _ _).1, (procStmts_fields _ _ _ _ _).2.1,
    (procStmts_fields _ _ _ _ _).2.2.2.1, (procStmts_fields _ _ _ _ _).2.2.2.2.1⟩

theorem parseLine_divisions (path : String) (st : ParseState) (n : Nat) (raw : List Char) :
    (parseLine path st n raw).divisions =
      match classifyLine raw with
      | .divHdr d => if d ∈ st.divisions then st.divisions else st.divisions ++ [d]
      | _ => st.divisions := by
  unfold parseLine
  cases classifyLine raw <;> simp
  exact (dataOrProc_fields _ _ _ _).2.1

/-- The division-header names a file's lines contribute, in line order
(the subsequence of lines the classifier recognises as division headers,
uppercased). -/
def divHeaders (lines : List (List Char)) : List String :=
  lines.filterMap (fun raw =>
    match classifyLine raw with
    | .divHdr d => some d
    | _ => none)

theorem parseLinesFrom_divisions (path : String) (lines : List (List Char)) :
    ∀ (st : ParseState) (n : Nat),
      (parseLinesFrom path st n lines).divisions =
        (divHeaders lines).foldl (fun ds d => if d ∈ ds then ds else ds ++ [d]) st.divisions := by
  induction lines with
  | nil => intro st n; rfl
  | cons raw ls ih =>
    intro st n
    show (parseLinesFrom path (parseLine path st n raw) (n + 1) ls).divisions = _
    rw [ih]
    rw [show divHeaders (raw :: ls) = _ from List.filterMap_cons _ _ _]
    have hdl := parseLine_divisions path st n raw
    cases h : classifyLine raw <;> simp [h] at hdl <;> simp [hdl, divHeaders]

theorem foldl_insertIfAbsent_eq_eraseDups_loop (l : List String) :
    ∀ acc : List String,
      l.foldl (fun ds d => if d ∈ ds then ds else ds ++ [d]) acc.reverse
        = List.eraseDups.loop l acc := by
  induction l with
  | nil => intro acc; rfl
  | cons a l ih =>
    intro acc
    show List.foldl _ (if a ∈ acc.reverse then acc.reverse else acc.reverse ++ [a]) l = _
    unfold List.eraseDups.loop
    cases h : List.elem a acc with
    | true =>
      have hm : a ∈ acc.reverse := by
        rw [List.mem_reverse]; exact List.elem_iff.mp h
      rw [if_pos hm]
      exact ih acc
    | false =>
      have hm : a ∉ acc.reverse := by
        rw [List.mem_reverse]
        intro hc
        rw [List.elem_iff.mpr hc] at h
        cases h
      rw [if_neg hm]
      have h2 : acc.reverse ++ [a] = (a :: acc).reverse := by simp
      rw [h2]
      exact ih (a :: acc)

theorem divisions_eq_eraseDups (path : String) (text : List Char) :
    (parseLines path text).divisions = (divHeaders (splitlines text)).eraseDups := by
  unfold parseLines List.eraseDups
  rw [parseLinesFrom_divisions]
  show List.foldl _ (([] : List String).reverse) _ = _
  exact foldl_insertIfAbsent_eq_eraseDups_loop _ []

theorem insertIfAbsent_nodup (l : List String) :
    ∀ acc : List String, acc.Nodup →
      (l.foldl (fun ds d => if d ∈ ds then ds else ds ++ [d]) acc).Nodup := by
  induction l with
  | nil => intro acc h; exact h
  | cons a l ih =>
    intro acc h
    show (List.foldl _ (if a ∈ acc then acc else acc ++ [a]) l).Nodup
    by_cases hm : a ∈ acc
    · rw [if_pos hm]; exact ih acc h
    · rw [if_neg hm]
      refine ih _ ?_
      rw [List.nodup_append]
      exact ⟨h, List.nodup_singleton a, by simpa using hm⟩

/-- C5: for every input file, the division list of its structure record
contains no duplicate division names and lists the divisions in the order
of their first occurrence in the file (it equals the header-name sequence
deduplicated keeping first occurrences, i.e. `List.eraseDups`). -/
theorem C5_division_list_nodup_first_occurrence (path : String) (text : List Char) :
    (parseLines path text).divisions.Nodup ∧
    (parseLines path text).divisions = (divHeaders (splitlines text)).eraseDups := by
  constructor
  · rw [parseLines, parseLinesFrom_divisions]
    exact insertIfAbsent_nodup _ [] List.nodup_nil
  · exact divisions_eq_eraseDups path text

theorem alookup_mem {α : Type} (m : List (String × α)) (k : String) (v : α)
    (h : alookup m k = some v) : (k, v) ∈ m := by
  induction m with
  | nil => cases h
  | cons kv m ih =>
    obtain ⟨k', v'⟩ := kv
    unfold alookup at h
    by_cases he : k' = k
    · rw [if_pos he] at h
      cases h
      subst he
      exact List.mem_cons_self _ _
    · rw [if_neg he] at h
      exact List.mem_cons_of_mem _ (ih h)

theorem varMatch_level_le (cs : List Char) (lvl : Nat) (nm pic : List Char)
    (h : varMatch cs = some (lvl, nm, pic)) : lvl ≤ 99 := by
  simp only [varMatch] at h
  repeat' split at h
  all_goals cases h
  simp only [digitVal]
  simp only [Bool.and_eq_true, isDigitCh, decide_eq_true_eq] at *
  omega

/-- What one classifier step can do to `data_sections`: leave it alone, or
(only when the current division is `DATA` and a section is open) append
one item produced by `_VAR_RE` to the open section. -/
theorem parseLine_data_sections (path : String) (st : ParseState) (n : Nat)
    (raw : List Char) :
    (parseLine path st n raw).data_sections = st.data_sections ∨
    (st.div = some "DATA" ∧
      ∃ s strip lvl nm pic, st.sec = some s ∧ varMatch strip = some (lvl, nm, pic) ∧
        (parseLine path st n raw).data_sections =
          aappendItem st.data_sections s ⟨lvl, nm.asString, pic.asString⟩) := by
  unfold parseLine
  cases hc : classifyLine raw with
  | skip => left; rfl
  | divHdr d => left; rfl
  | secHdr s => left; rfl
  | progId nm => left; rfl
  | other strip =>
    show (dataOrProc path st n strip).data_sections = st.data_sections ∨
      (st.div = some "DATA" ∧
        ∃ s strp lvl nm pic, st.sec = some s ∧ varMatch strp = some (lvl, nm, pic) ∧
          (dataOrProc path st n strip).data_sections =
            aappendItem st.data_sections s ⟨lvl, nm.asString, pic.asString⟩)
    unfold dataOrProc
    by_cases hdv : st.div = some "DATA"
    · rw [if_pos hdv]
      cases hs : st.sec with
      | none => left; rfl
      | some s =>
        cases hv : varMatch strip with
        | none => left; rfl
        | some v =>
          obtain ⟨lvl, nm, pic⟩ := v
          right
          exact ⟨hdv, s, strip, lvl, nm, pic, rfl, hv, rfl⟩
    · rw [if_neg hdv]
      split
      · cases hp : parMatch strip with
        | some nmp => left; simp [hp]
        | none =>
          cases hpa : st.para with
          | none => left; simp [hp, hpa]
          | some p =>
            left
            simp only [hp, hpa]
            exact (procStmts_fields path st n strip p).2.2.1
      · left; rfl

theorem aappendItem_items (m : List (String × List DataItem)) (k : String) (it : DataItem) :
    ∀ pr ∈ aappendItem m k it, ∀ x ∈ pr.2, (∃ pr' ∈ m, x ∈ pr'.2) ∨ x = it := by
  induction m with
  | nil =>
    intro pr hpr x hx
    simp only [aappendItem, List.mem_singleton] at hpr
    subst hpr
    simp only [List.mem_singleton] at hx
    right
    exact hx
  | cons kv m' ih =>
    obtain ⟨k', v⟩ := kv
    intro pr hpr x hx
    unfold aappendItem at hpr
    by_cases he : k' = k
    · rw [if_pos he] at hpr
      rcases List.mem_cons.mp hpr with h1 | h1
      · subst h1
        rcases List.mem_append.mp hx with h2 | h2
        · left
          exact ⟨(k', v), List.mem_cons_self _ _, h2⟩
        · right
          simpa using h2
      · left
        exact ⟨pr, List.mem_cons_of_mem _ h1, hx⟩
    · rw [if_neg he] at hpr
      rcases List.mem_cons.mp hpr with h1 | h1
      · subst h1
        left
        exact ⟨(k', v), List.mem_cons_self _ _, hx⟩
      · rcases ih pr h1 x hx with h2 | h2
        · obtain ⟨pr', hpr', hx'⟩ := h2
          left
          exact ⟨pr', List.mem_cons_of_mem _ hpr', hx'⟩
        · right
          exact h2

theorem parseLinesFrom_level_le (path : String) (lines : List (List Char)) :
    ∀ (st : ParseState) (n : Nat),
      (∀ pr ∈ st.data_sections, ∀ x ∈ pr.2, x.level ≤ 99) →
      ∀ pr ∈ (parseLinesFrom path st n lines).data_sections, ∀ x ∈ pr.2, x.level ≤ 99 := by
  induction lines with
  | nil => intro st n h; exact h
  | cons raw ls ih =>
    intro st n h
    show ∀ pr ∈ (parseLinesFrom path (parseLine path st n raw) (n + 1) ls).data_sections, _
    refine ih _ _ ?_
    rcases parseLine_data_sections path st n raw with hd | ⟨-, s, strp, lvl, nm, pic, -, hv, hd⟩
    · rw [hd]; exact h
    · rw [hd]
      intro pr hpr x hx
      rcases aappendItem_items _ _ _ pr hpr x hx with h1 | h1
      · obtain ⟨pr', hpr', hx'⟩ := h1
        exact h pr' hpr' x hx'
      · subst h1
        exact varMatch_level_le _ _ _ _ hv

/-- The counterexample file for C2: a level-77 item (any two digits are
accepted by `_VAR_RE`). -/
def c2Text : List Char := "DATA DIVISION.\nWS SECTION.\n77 X PIC 9.".toList

/-- C2 counterexample: parsing `c2Text` records a `DataItem` whose level
is 77, which is not between 1 and 49; the claim's range is wrong. -/
theorem C2_counterexample :
    alookup (parseLines "f.cbl" c2Text).data_sections "WS" =
      some [⟨77, "X", "9"⟩] ∧ ¬(77 ≤ 49) := by
  constructor
  · rfl
  · decide

/-- C2 (amended): every recorded `DataItem` has a level between 0 and 99
inclusive (the two-digit group of `_VAR_RE` admits the whole range
00–99, not just 1–49). -/
theorem C2_level_between_0_and_99 (path : String) (text : List Char) (s : String)
    (items : List DataItem) (it : DataItem)
    (h1 : alookup (parseLines path text).data_sections s = some items)
    (h2 : it ∈ items) : 0 ≤ it.level ∧ it.level ≤ 99 := by
  refine ⟨Nat.zero_le _, ?_⟩
  have hm := alookup_mem _ _ _ h1
  exact parseLinesFrom_level_le path (splitlines text) (initState path) 1
    (by intro pr hpr x hx; cases hpr) (s, items) hm it h2

/-- C2 witness: the amended bound applied at the concrete level-77 item. -/
theorem C2_witness : 0 ≤ (77 : Nat) ∧ (77 : Nat) ≤ 99 := by
  have h := C2_level_between_0_and_99 "f.cbl" c2Text "WS" [⟨77, "X", "9"⟩]
    ⟨77, "X", "9"⟩ rfl (List.mem_singleton.mpr rfl)
  exact h

/-- C6: data items are recorded only inside the data division with an open
section.  First conjunct: a division header resets the open section (and
sets the division), so any section open later was opened after that
header; second conjunct: a step can only change `data_sections` when the
current division is `DATA` and a section is open. -/
theorem C6_data_items_only_in_open_data_section :
    (∀ (path : String) (st : ParseState) (n : Nat) (raw : List Char) (d : String),
      classifyLine raw = .divHdr d →
        (parseLine path st n raw).sec = none ∧ (parseLine path st n raw).div = some d) ∧
    (∀ (path : String) (st : ParseState) (n : Nat) (raw : List Char),
      (parseLine path st n raw).data_sections ≠ st.data_sections →
        st.div = some "DATA" ∧ st.sec ≠ none) := by
  constructor
  · intro path st n raw d hc
    unfold parseLine
    rw [hc]
    exact ⟨rfl, rfl⟩
  · intro path st n raw h
    rcases parseLine_data_sections path st n raw with hd | ⟨hdv, s, strp, lvl, nm, pic, hs, -, -⟩
    · exact absurd hd h
    · exact ⟨hdv, by rw [hs]; exact fun hc => Option.noConfusion hc⟩

def c6StA : ParseState := ⟨"p", [], [], [], [], some "PROCEDURE", some "X", none⟩

def c6StB : ParseState := ⟨"p", ["DATA"], [], [], [], some "DATA", some "WS", none⟩

/-- C6 witness: both conjuncts applied at concrete inputs — a division
header closing the open section, and a recording step implying the
DATA-division/section-open conditions. -/
theorem C6_witness :
    ((parseLine "f.cbl" c6StA 1 ("DATA DIVISION.".toList)).sec = none ∧
      (parseLine "f.cbl" c6StA 1 ("DATA DIVISION.".toList)).div = some "DATA") ∧
    (c6StB.div = some "DATA" ∧ c6StB.sec ≠ none) := by
  constructor
  · exact C6_data_items_only_in_open_data_section.1 "f.cbl" c6StA 1 _ "DATA" (by decide)
  · exact C6_data_items_only_in_open_data_section.2 "f.cbl" c6StB 1
      ("77 X PIC 9.".toList) (by decide)

theorem asetPara_mem (m : List (String × List Stmt)) (k : String) :
    ∀ pr ∈ asetPara m k, pr = (k, []) ∨ pr ∈ m := by
  induction m with
  | nil =>
    intro pr hpr
    simp only [asetPara, List.mem_singleton] at hpr
    exact Or.inl hpr
  | cons kv m' ih =>
    obtain ⟨k', v⟩ := kv
    intro pr hpr
    unfold asetPara at hpr
    by_cases he : k' = k
    · rw [if_pos he] at hpr
      rcases List.mem_cons.mp hpr with h1 | h1
      · subst he; exact Or.inl h1
      · exact Or.inr (List.mem_cons_of_mem _ h1)
    · rw [if_neg he] at hpr
      rcases List.mem_cons.mp hpr with h1 | h1
      · subst h1; exact Or.inr (List.mem_cons_self _ _)
      · rcases ih pr h1 with h2 | h2
        · exact Or.inl h2
        · exact Or.inr (List.mem_cons_of_mem _ h2)

theorem aappendStmt_mem (m : List (String × List Stmt)) (k : String) (s : Stmt) :
    ∀ pr ∈ aappendStmt m k s, pr ∈ m ∨ ∃ old, (k, old) ∈ m ∧ pr = (k, old ++ [s]) := by
  induction m with
  | nil => intro pr hpr; cases hpr
  | cons kv m' ih =>
    obtain ⟨k', v⟩ := kv
    intro pr hpr
    unfold aappendStmt at hpr
    by_cases he : k' = k
    · rw [if_pos he] at hpr
      rcases List.mem_cons.mp hpr with h1 | h1
      · subst he; subst h1
        exact Or.inr ⟨v, List.mem_cons_self _ _, rfl⟩
      · exact Or.inl (List.mem_cons_of_mem _ h1)
    · rw [if_neg he] at hpr
      rcases List.mem_cons.mp hpr with h1 | h1
      · subst h1; exact Or.inl (List.mem_cons_self _ _)
      · rcases ih pr h1 with h2 | h2
        · exact Or.inl (List.mem_cons_of_mem _ h2)
        · obtain ⟨old, ho, he'⟩ := h2
          exact Or.inr ⟨old, List.mem_cons_of_mem _ ho, he'⟩

theorem alookup_aappendStmt (m : List (String × List Stmt)) (k : String) (s : Stmt) :
    alookup (aappendStmt m k s) k = (alookup m k).map (fun v => v ++ [s]) := by
  induction m with
  | nil => rfl
  | cons kv m' ih =>
    obtain ⟨k', v⟩ := kv
    unfold aappendStmt alookup
    by_cases he : k' = k
    · rw [if_pos he]
      show (if k' = k then some (v ++ [s]) else _) = _
      rw [if_pos he, if_pos he]
      rfl
    · rw [if_neg he]
      show (if k' = k then some v else alookup (aappendStmt m' k s) k) = _
      rw [if_neg he, if_neg he]
      exact ih

/-- Statements of every paragraph entry are pairwise ordered by line
number, and all line numbers are bounded by `n`. -/
def PLB (n : Nat) (m : List (String × List Stmt)) : Prop :=
  ∀ pr ∈ m, List.Pairwise (fun a b : Stmt => a.line ≤ b.line) pr.2 ∧ ∀ x ∈ pr.2, x.line ≤ n

theorem aappendStmt_plb (m : List (String × List Stmt)) (k : String) (s : Stmt) (n : Nat)
    (h : PLB n m) (hs : s.line = n) : PLB n (aappendStmt m k s) := by
  intro pr hpr
  rcases aappendStmt_mem m k s pr hpr with h1 | ⟨old, ho, he⟩
  · exact h pr h1
  · subst he
    obtain ⟨hpw, hb⟩ := h (k, old) ho
    constructor
    · rw [List.pairwise_append]
      refine ⟨hpw, List.pairwise_singleton _ _, ?_⟩
      intro a ha b hb'
      rw [List.mem_singleton] at hb'
      subst hb'
      rw [hs]
      exact hb a ha
    · intro x hx
      rcases List.mem_append.mp hx with h2 | h2
      · exact hb x h2
      · rw [List.mem_singleton] at h2
        subst h2
        omega

theorem asetPara_plb (m : List (String × List Stmt)) (k : String) (n : Nat)
    (h : PLB n m) : PLB n (asetPara m k) := by
  intro pr hpr
  rcases asetPara_mem m k pr hpr with h1 | h1
  · subst h1
    exact ⟨List.Pairwise.nil, by intro x hx; cases hx⟩
  · exact h pr h1

theorem procStmts_plb (path : String) (st : ParseState) (n : Nat) (strip : List Char)
    (p : String) (h : PLB n st.paragraphs) : PLB n (procStmts path st n strip p).paragraphs := by
  unfold procStmts
  cases hc : callSearch strip with
  | none =>
    cases hp : perfSearch strip with
    | none => exact h
    | some t2 => exact aappendStmt_plb _ _ _ _ h rfl
  | some t1 =>
    cases hp : perfSearch strip with
    | none => exact aappendStmt_plb _ _ _ _ h rfl
    | some t2 => exact aappendStmt_plb _ _ _ _ (aappendStmt_plb _ _ _ _ h rfl) rfl

theorem parseLine_plb (path : String) (st : ParseState) (n : Nat) (raw : List Char)
    (h : PLB n st.paragraphs) : PLB n (parseLine path st n raw).paragraphs := by
  unfold parseLine
  cases hc : classifyLine raw with
  | skip => exact h
  | divHdr d => exact h
  | secHdr s => exact h
  | progId nm => exact h
  | other strip =>
    show PLB n (dataOrProc path st n strip).paragraphs
    unfold dataOrProc
    by_cases hdv : st.div = some "DATA"
    · rw [if_pos hdv]
      cases st.sec <;> cases varMatch strip <;> exact h
    · rw [if_neg hdv]
      split
      · cases hp : parMatch strip with
        | some nm => exact asetPara_plb _ _ _ h
        | none =>
          cases hpa : st.para with
          | none => exact h
          | some p => exact procStmts_plb path st n strip p h
      · exact h

theorem plb_mono (n m' : Nat) (m : List (String × List Stmt)) (h : PLB n m) (hle : n ≤ m') :
    PLB m' m := by
  intro pr hpr
  obtain ⟨h1, h2⟩ := h pr hpr
  exact ⟨h1, fun x hx => le_trans (h2 x hx) hle⟩

theorem parseLinesFrom_plb (path : String) (lines : List (List Char)) :
    ∀ (st : ParseState) (n : Nat), PLB n st.paragraphs →
      ∀ pr ∈ (parseLinesFrom path st n lines).paragraphs,
        List.Pairwise (fun a b : Stmt => a.line ≤ b.line) pr.2 := by
  induction lines with
  | nil => intro st n h pr hpr; exact (h pr hpr).1
  | cons raw ls ih =>
    intro st n h
    show ∀ pr ∈ (parseLinesFrom path (parseLine path st n raw) (n + 1) ls).paragraphs, _
    exact ih _ (n + 1) (plb_mono n (n + 1) _ (parseLine_plb path st n raw h) (Nat.le_succ n))

/-- C4: statements stored for a paragraph are in (non-strictly) ascending
line order, and a line matching both `_CALL_RE` and `_PERF_RE` inside an
open paragraph appends one `CALL` and one `PERFORM` statement (in that
order, both with that line's number). -/
theorem C4_statement_order_and_dual_match :
    (∀ (path : String) (text : List Char) (p : String) (ss : List Stmt),
      alookup (parseLines path text).paragraphs p = some ss →
        List.Pairwise (fun a b : Stmt => a.line ≤ b.line) ss) ∧
    (∀ (path : String) (st : ParseState) (n : Nat) (raw strip : List Char)
      (p : String) (old : List Stmt) (t1 t2 : List Char),
      classifyLine raw = .other strip →
      st.div = some "PROCEDURE" →
      parMatch strip = none →
      st.para = some p →
      alookup st.paragraphs p = some old →
      callSearch strip = some t1 →
      perfSearch strip = some t2 →
        alookup (parseLine path st n raw).paragraphs p =
          some (old ++ [⟨"CALL", t1.asString, n⟩, ⟨"PERFORM", t2.asString, n⟩])) := by
  constructor
  · intro path text p ss h
    have hm := alookup_mem _ _ _ h
    exact parseLinesFrom_plb path (splitlines text) (initState path) 1
      (by intro pr hpr; cases hpr) (p, ss) hm
  · intro path st n raw strip p old t1 t2 hc hpro hpm hpa hold hcall hperf
    unfold parseLine
    rw [hc]
    show alookup (dataOrProc path st n strip).paragraphs p = _
    unfold dataOrProc
    rw [if_neg (by rw [hpro]; decide), if_pos hpro]
    simp only [hpm, hpa]
    unfold procStmts
    simp only [hcall, hperf]
    rw [alookup_aappendStmt]
    show (alookup (aappendStmt st.paragraphs p _) p).map _ = _
    rw [alookup_aappendStmt, hold]
    simp

def c4Text : List Char := "PROCEDURE DIVISION.\nP.\nCALL \"X\" PERFORM Y".toList

def c4St : ParseState := ⟨"f", ["PROCEDURE"], [], [("P", [])], [], some "PROCEDURE", none, some "P"⟩

def c4Raw : List Char := "CALL \"X\" PERFORM Y".toList

/-- C4 witness: both conjuncts at concrete inputs — the parsed example
file's paragraph is line-ordered, and its dual-match line produced one
statement for each pattern. -/
theorem C4_witness :
    List.Pairwise (fun a b : Stmt => a.line ≤ b.line)
      [⟨"CALL", "X", 3⟩, ⟨"PERFORM", "Y", 3⟩] ∧
    alookup (parseLine "f.cbl" c4St 3 c4Raw).paragraphs "P" =
      some ([] ++ [⟨"CALL", "X", 3⟩, ⟨"PERFORM", "Y", 3⟩]) := by
  constructor
  · exact C4_statement_order_and_dual_match.1 "f.cbl" c4Text "P"
      [⟨"CALL", "X", 3⟩, ⟨"PERFORM", "Y", 3⟩] rfl
  · exact C4_statement_order_and_dual_match.2 "f.cbl" c4St 3 c4Raw c4Raw "P" []
      ("X".toList) ("Y".toList) (by decide) rfl (by decide) rfl rfl (by decide) (by decide)

theorem alookup_asetPara_self (m : List (String × List Stmt)) (k : String) :
    alookup (asetPara m k) k = some [] := by
  induction m with
  | nil => simp [asetPara, alookup]
  | cons kv m' ih =>
    obtain ⟨k', v⟩ := kv
    unfold asetPara
    by_cases he : k' = k
    · rw [if_pos he]
      unfold alookup
      rw [if_pos he]
    · rw [if_neg he]
      unfold alookup
      rw [if_neg he]
      exact ih

def c10Text : List Char := "PROCEDURE DIVISION.\nP.\nCALL \"A\".\nP.\nCALL \"B\".".toList

/-- C10: inside the procedure division a paragraph-header line always
(re)binds the name to a fresh empty statement list — the step is exactly
`asetPara`, which leaves `calls` untouched; `asetPara` maps the name to
`[]` regardless of any earlier entry; and on the concrete duplicate-header
file the final record keeps only the statement after the last header while
both raw call edges are kept. -/
theorem C10_duplicate_paragraph_header_resets :
    (∀ (path : String) (st : ParseState) (n : Nat) (raw strip : List Char) (nm : List Char),
      classifyLine raw = .other strip →
      st.div = some "PROCEDURE" →
      parMatch strip = some nm →
        parseLine path st n raw =
          { st with para := some nm.asString, paragraphs := asetPara st.paragraphs nm.asString }) ∧
    (∀ (m : List (String × List Stmt)) (k : String), alookup (asetPara m k) k = some []) ∧
    (alookup (parseLines "f.cbl" c10Text).paragraphs "P" = some [⟨"CALL", "B", 5⟩] ∧
      (parseLines "f.cbl" c10Text).calls =
        [⟨"f.cbl", "P", 3, "A"⟩, ⟨"f.cbl", "P", 5, "B"⟩]) := by
  refine ⟨?_, alookup_asetPara_self, by decide, by decide⟩
  intro path st n raw strip nm hc hpro hpm
  unfold parseLine
  rw [hc]
  show dataOrProc path st n strip = _
  unfold dataOrProc
  rw [if_neg (by rw [hpro]; decide), if_pos hpro]
  simp only [hpm]

def c10St : ParseState :=
  ⟨"f", ["PROCEDURE"], [], [("P", [⟨"CALL", "A", 3⟩])], [⟨"f.cbl", "P", 3, "A"⟩],
    some "PROCEDURE", none, some "P"⟩

/-- C10 witness: the step conjunct applied at the concrete second header
line `P.` of the duplicate-header file, and the reset conjunct at that
state's paragraph map. -/
theorem C10_witness :
    parseLine "f.cbl" c10St 4 ("P.".toList) =
      { c10St with para := some "P", paragraphs := asetPara c10St.paragraphs "P" } ∧
    alookup (asetPara c10St.paragraphs "P") "P" = some [] := by
  constructor
  · exact C10_duplicate_paragraph_header_resets.1 "f.cbl" c10St 4 ("P.".toList)
      ("P.".toList) ("P".toList) (by decide) rfl (by decide)
  · exact C10_duplicate_paragraph_header_resets.2.1 c10St.paragraphs "P"

theorem matchLit_cons (l : Char) (ls cs r : List Char)
    (h : matchLit (l :: ls) cs = some r) :
    ∃ c cs', cs = c :: cs' ∧ charEqCI l c = true ∧ matchLit ls cs' = some r := by
  cases cs with
  | nil => cases h
  | cons c cs' =>
    unfold matchLit at h
    by_cases he : charEqCI l c = true
    · rw [if_pos he] at h
      exact ⟨c, cs', rfl, he, h⟩
    · rw [if_neg he] at h
      cases h

theorem isWordChar_of_charEqCI_lower {l c : Char}
    (hl : 97 ≤ l.toNat ∧ l.toNat ≤ 122) (h : charEqCI l c = true) :
    isWordChar c = true := by
  simp only [charEqCI, Bool.or_eq_true, beq_iff_eq, decide_eq_true_eq] at h
  rcases h with h | h
  · subst h
    simp only [isWordChar, decide_eq_true_eq]
    omega
  · simp only [isWordChar, decide_eq_true_eq]
    omega

theorem eq_of_charEqCI_low {l c : Char} (hl : l.toNat < 97) (h : charEqCI l c = true) :
    c = l := by
  simp only [charEqCI, Bool.or_eq_true, beq_iff_eq, decide_eq_true_eq] at h
  rcases h with h | h
  · exact h
  · omega

theorem isWordHyphen_of_isWordChar {c : Char} (h : isWordChar c = true) :
    isWordHyphen c = true := by
  simp [isWordHyphen, h]

/-- A line whose (stripped) text matches `_PROGID_RE` can match neither
`_DIV_RE` nor `_SEC_RE`: its leading `[\w-]` run is `PROGRAM-ID`, which
is followed by `.` rather than the whitespace those patterns require. -/
theorem progid_not_div_sec (cs nm : List Char) (h : progidMatch cs = some nm) :
    divMatch cs = none ∧ secMatch cs = none := by
  unfold progidMatch at h
  cases hml : matchLit ("program-id.".toList) (cs.dropWhile isSpaceCh) with
  | none => rw [hml] at h; cases h
  | some rest =>
    have hml' := hml
    rw [show ("program-id.".toList) = ['p','r','o','g','r','a','m','-','i','d','.'] from rfl]
      at hml'
    obtain ⟨a0, t0, hx0, hq0, hml'⟩ := matchLit_cons _ _ _ _ hml'
    obtain ⟨a1, t1, hx1, hq1, hml'⟩ := matchLit_cons _ _ _ _ hml'
    obtain ⟨a2, t2, hx2, hq2, hml'⟩ := matchLit_cons _ _ _ _ hml'
    obtain ⟨a3, t3, hx3, hq3, hml'⟩ := matchLit_cons _ _ _ _ hml'
    obtain ⟨a4, t4, hx4, hq4, hml'⟩ := matchLit_cons _ _ _ _ hml'
    obtain ⟨a5, t5, hx5, hq5, hml'⟩ := matchLit_cons _ _ _ _ hml'
    obtain ⟨a6, t6, hx6, hq6, hml'⟩ := matchLit_cons _ _ _ _ hml'
    obtain ⟨a7, t7, hx7, hq7, hml'⟩ := matchLit_cons _ _ _ _ hml'
    obtain ⟨a8, t8, hx8, hq8, hml'⟩ := matchLit_cons _ _ _ _ hml'
    obtain ⟨a9, t9, hx9, hq9, hml'⟩ := matchLit_cons _ _ _ _ hml'
    obtain ⟨a10, t10, hx10, hq10, hml'⟩ := matchLit_cons _ _ _ _ hml'
    have hw0 : isWordChar a0 = true :=
      isWordChar_of_charEqCI_lower (by decide) hq0
    have hw1 : isWordHyphen a1 = true :=
      isWordHyphen_of_isWordChar (isWordChar_of_charEqCI_lower (by decide) hq1)
    have hw2 : isWordHyphen a2 = true :=
      isWordHyphen_of_isWordChar (isWordChar_of_charEqCI_lower (by decide) hq2)
    have hw3 : isWordHyphen a3 = true :=
      isWordHyphen_of_isWordChar (isWordChar_of_charEqCI_lower (by decide) hq3)
    have hw4 : isWordHyphen a4 = true :=
      isWordHyphen_of_isWordChar (isWordChar_of_charEqCI_lower (by decide) hq4)
    have hw5 : isWordHyphen a5 = true :=
      isWordHyphen_of_isWordChar (isWordChar_of_charEqCI_lower (by decide) hq5)
    have hw6 : isWordHyphen a6 = true :=
      isWordHyphen_of_isWordChar (isWordChar_of_charEqCI_lower (by decide) hq6)
    have ha7 : a7 = '-' := eq_of_charEqCI_low (by decide) hq7
    have hw7 : isWordHyphen a7 = true := by rw [ha7]; decide
    have hw8 : isWordHyphen a8 = true :=
      isWordHyphen_of_isWordChar (isWordChar_of_charEqCI_lower (by decide) hq8)
    have hw9 : isWordHyphen a9 = true :=
      isWordHyphen_of_isWordChar (isWordChar_of_charEqCI_lower (by decide) hq9)
    have ha10 : a10 = '.' := eq_of_charEqCI_low (by decide) hq10
    have hw10 : isWordHyphen a10 = false := by rw [ha10]; decide
    have hs10 : isSpaceCh a10 = false := by rw [ha10]; decide
    have hd : cs.dropWhile isSpaceCh =
        a0 :: a1 :: a2 :: a3 :: a4 :: a5 :: a6 :: a7 :: a8 :: a9 :: a10 :: t10 := by
      rw [hx0, hx1, hx2, hx3, hx4, hx5, hx6, hx7, hx8, hx9, hx10]
    constructor
    · simp only [divMatch, hd, hw0, List.dropWhile_cons, hw1, hw2, hw3, hw4, hw5, hw6, hw7,
        hw8, hw9, hw10, hs10, Bool.false_eq_true, if_true, if_false, ite_true, ite_false]
    · simp only [secMatch, hd, hw0, List.dropWhile_cons, hw1, hw2, hw3, hw4, hw5, hw6, hw7,
        hw8, hw9, hw10, hs10, Bool.false_eq_true, if_true, if_false, ite_true, ite_false]

theorem dropWhile_append_last {p : Char → Bool} (xs : List Char) (x : Char)
    (hx : p x = false) : (xs ++ [x]).dropWhile p = xs.dropWhile p ++ [x] := by
  induction xs with
  | nil => simp [List.dropWhile_cons, hx]
  | cons a xs ih =>
    simp only [List.cons_append, List.dropWhile_cons]
    by_cases ha : p a = true
    · simp only [ha, if_true, ite_true]
      exact ih
    · simp [ha]

theorem comment_progid_none (raw : List Char) (h : isCommentLine raw = true) :
    progidMatch (stripChars raw) = none := by
  unfold isCommentLine at h
  cases hd : raw.dropWhile isSpaceCh with
  | nil => rw [hd] at h; cases h
  | cons c t =>
    rw [hd] at h
    split at h
    · rename_i heq
      obtain ⟨rfl, -⟩ : c = '*' ∧ True := by
        cases heq
        exact ⟨rfl, trivial⟩
      have hstrip : stripChars raw = '*' :: ((t.reverse.dropWhile isSpaceCh).reverse) := by
        unfold stripChars
        rw [hd, List.reverse_cons, dropWhile_append_last _ _ (by decide), List.reverse_append]
        rfl
      rw [hstrip]
      unfold progidMatch
      rw [show ("program-id.".toList) = 'p' :: "rogram-id.".toList from rfl]
      simp only [List.dropWhile_cons, show isSpaceCh '*' = false from rfl,
        Bool.false_eq_true, ite_false, matchLit, show charEqCI 'p' '*' = false from rfl]
    · cases h

/-- A line whose stripped text matches `_PROGID_RE` is classified as a
program-id declaration: it cannot be blank or a comment, and the earlier
`_DIV_RE`/`_SEC_RE` checks cannot fire on it. -/
theorem classify_progid (raw nm : List Char) (h : progidMatch (stripChars raw) = some nm) :
    classifyLine raw = .progId nm.asString := by
  unfold classifyLine
  have hcom : isCommentLine raw = false := by
    cases hc : isCommentLine raw
    · rfl
    · rw [comment_progid_none raw hc] at h
      cases h
  rw [hcom]
  have hne : (stripChars raw).isEmpty = false := by
    cases hh : stripChars raw with
    | nil => rw [hh] at h; cases h
    | cons a b => rfl
  simp only [Bool.false_eq_true, if_false, hne]
  obtain ⟨hdiv, hsec⟩ := progid_not_div_sec _ _ h
  rw [hdiv, hsec, h]

/-- Inversion: a line classified as a program-id declaration got its name
from `_PROGID_RE` on its stripped text. -/
theorem classify_progid_inv (raw : List Char) (s : String)
    (h : classifyLine raw = .progId s) :
    ∃ nm, progidMatch (stripChars raw) = some nm ∧ s = nm.asString := by
  simp only [classifyLine] at h
  split at h
  · cases h
  · split at h
    · cases h
    · split at h
      · cases h
      · split at h
        · cases h
        · split at h
          · rename_i nm hm
            cases h
            exact ⟨nm, hm, rfl⟩
          · cases h

theorem parseLine_program_id (path : String) (st : ParseState) (n : Nat) (raw : List Char) :
    (parseLine path st n raw).program_id =
      match progidMatch (stripChars raw) with
      | some nm => nm.asString
      | none => st.program_id := by
  cases hp : progidMatch (stripChars raw) with
  | some nm =>
    unfold parseLine
    rw [classify_progid raw nm hp]
  | none =>
    unfold parseLine
    cases hc : classifyLine raw with
    | skip => rfl
    | divHdr d => rfl
    | secHdr s => rfl
    | progId s =>
      obtain ⟨nm, hm, -⟩ := classify_progid_inv raw s hc
      rw [hm] at hp
      cases hp
    | other strip =>
      show (dataOrProc path st n strip).program_id = st.program_id
      exact (dataOrProc_fields path st n strip).1

/-- The program-id declarations a file's lines contain, in line order:
the captures of `_PROGID_RE` on each stripped line. -/
def progidNames (lines : List (List Char)) : List String :=
  lines.filterMap (fun raw => (progidMatch (stripChars raw)).map List.asString)

theorem parseLinesFrom_program_id (path : String) (lines : List (List Char)) :
    ∀ (st : ParseState) (n : Nat),
      (parseLinesFrom path st n lines).program_id =
        (progidNames lines).getLast?.getD st.program_id := by
  induction lines with
  | nil => intro st n; rfl
  | cons raw ls ih =>
    intro st n
    show (parseLinesFrom path (parseLine path st n raw) (n + 1) ls).program_id = _
    rw [ih]
    have hpl := parseLine_program_id path st n raw
    rw [show progidNames (raw :: ls) = _ from List.filterMap_cons _ _ _]
    cases hp : progidMatch (stripChars raw) with
    | none =>
      rw [hp] at hpl
      have hpl' : (parseLine path st n raw).program_id = st.program_id := hpl
      simp only [hp, Option.map_none']
      rw [hpl']
      rfl
    | some nm =>
      rw [hp] at hpl
      have hpl' : (parseLine path st n raw).program_id = nm.asString := hpl
      simp only [hp, Option.map_some']
      rw [hpl', List.getLast?_cons]
      simp only [Option.getD_some]
      rfl

/-- C7: a readable file with no line matching the program-id declaration
pattern keeps the identifier defaulted from the file name (`path.stem`);
when declaration lines exist the default is overridden by the captured
name (the last declaration's capture — each match overwrites). -/
theorem C7_program_id_default_and_override :
    (∀ (path : String) (text : List Char),
      progidNames (splitlines text) = [] →
        (parseLines path text).program_id = stem path) ∧
    (∀ (path : String) (text : List Char) (nm : String),
      (progidNames (splitlines text)).getLast? = some nm →
        (parseLines path text).program_id = nm) := by
  constructor
  · intro path text h
    unfold parseLines
    rw [parseLinesFrom_program_id, h]
    rfl
  · intro path text nm h
    unfold parseLines
    rw [parseLinesFrom_program_id, h]
    rfl

def c7NoDecl : List Char := "PROCEDURE DIVISION.\nP.\nCALL \"X\".".toList

def c7Decl : List Char := "IDENTIFICATION DIVISION.\nPROGRAM-ID. ALPHA.".toList

/-- C7 witness: both conjuncts at concrete files — a declaration-free file
defaults to the stem of its path, a declared file takes the capture. -/
theorem C7_witness :
    (parseLines "dir/prog1.cbl" c7NoDecl).program_id = stem "dir/prog1.cbl" ∧
    (parseLines "dir/prog1.cbl" c7Decl).program_id = "ALPHA" := by
  constructor
  · exact C7_program_id_default_and_override.1 "dir/prog1.cbl" c7NoDecl (by decide)
  · exact C7_program_id_default_and_override.2 "dir/prog1.cbl" c7Decl "ALPHA" (by decide)

def c9Text : List Char := "PROGRAM-ID.\nB. x\nPROGRAM-ID. A.\nPROGRAM-ID. C.".toList

/-- C9 counterexample: `c9Text` has exactly two lines matching the
declaration pattern (captures `A` then `C`); the parser keeps `C` (the
last), as the claim says, but the sniffer returns `B` — the multiline
`\s+` of `_PROGID_RE.search` matches across the first line's newline —
not the first declaration line's capture `A`. -/
theorem C9_counterexample :
    progidNames (splitlines c9Text) = ["A", "C"] ∧
    (parseLines "f.cbl" c9Text).program_id = "C" ∧
    sniff_program_id (some c9Text) = some "B" ∧
    sniff_program_id (some c9Text) ≠ some "A" := by
  refine ⟨by decide, by decide, by decide, by decide⟩

def c9bText : List Char := "PROGRAM-ID. A.\nPROGRAM-ID. B.".toList

/-- C9 (amended): the parser's identifier is the last declaration line's
capture (each match overwrites the previous); the sniffer returns the
capture of the leftmost occurrence of the (multiline) pattern in the
text — which can differ from the structural identifier, as on `c9bText`,
so the indexed and structural identifiers can diverge. -/
theorem C9_parser_last_sniffer_leftmost :
    (∀ (path : String) (text : List Char) (nm : String),
      (progidNames (splitlines text)).getLast? = some nm →
        (parseLines path text).program_id = nm) ∧
    (sniff_program_id (some c9bText) = some "A" ∧
      (parseLines "x.cbl" c9bText).program_id = "B" ∧
      sniff_program_id (some c9bText) ≠
        some ((parseLines "x.cbl" c9bText).program_id)) := by
  constructor
  · intro path text nm h
    unfold parseLines
    rw [parseLinesFrom_program_id, h]
    rfl
  · exact ⟨by decide, by decide, by decide⟩

/-- C9 witness: the amended parser conjunct applied at the two-declaration
file. -/
theorem C9_witness : (parseLines "x.cbl" c9bText).program_id = "B" :=
  C9_parser_last_sniffer_leftmost.1 "x.cbl" c9bText "B" (by decide)

theorem lineTailsAux_cons (c : Char) (cs : List Char) :
    lineTailsAux (c :: cs) =
      if c == '\n' then cs :: lineTailsAux cs else lineTailsAux cs := rfl

theorem sniffScan_eq_findSome (cs : List Char) :
    sniffScan false cs = (lineTailsAux cs).findSome? progidMatch ∧
    sniffScan true cs = ((cs :: lineTailsAux cs).findSome? progidMatch) := by
  induction cs with
  | nil => exact ⟨rfl, rfl⟩
  | cons c rest ih =>
    obtain ⟨ihF, ihT⟩ := ih
    have hstep : sniffScan (c == '\n') rest =
        (lineTailsAux (c :: rest)).findSome? progidMatch := by
      rw [lineTailsAux_cons]
      by_cases hc : c = '\n'
      · subst hc
        simp only [beq_self_eq_true, ite_true, if_true]
        exact ihT
      · have hb : (c == '\n') = false := beq_eq_false_iff_ne.mpr hc
        simp only [hb, Bool.false_eq_true, ite_false, if_false]
        exact ihF
    constructor
    · show sniffScan (c == '\n') rest = _
      exact hstep
    · rw [sniffScan.eq_2, List.findSome?_cons]
      cases hp : progidMatch (c :: rest) with
      | some n => simp only [hp]
      | none =>
        simp only [hp]
        exact hstep

/-- C8: the sniffer returns no identifier whenever the read failed, and on
a readable text it returns the capture of the first (leftmost) occurrence
of the declaration pattern — the anchored pattern tried at every line
start of the text, leftmost first — or nothing when the pattern occurs
nowhere in the file. -/
theorem C8_sniffer_first_occurrence_or_none :
    sniff_program_id none = none ∧
    (∀ text : List Char,
      sniff_program_id (some text) =
        ((lineTails text).findSome? progidMatch).map List.asString) := by
  refine ⟨rfl, ?_⟩
  intro text
  simp only [sniff_program_id, lineTails]
  rw [(sniffScan_eq_findSome text).2]

theorem alookup_cons (k : String) {α : Type} (v : α) (m : List (String × α)) (q : String) :
    alookup ((k, v) :: m) q = if k = q then some v else alookup m q := rfl

theorem alookup_dinsert (m : List (String × String)) (k v q : String) :
    alookup (dinsert m k v) q = if q = k then some v else alookup m q := by
  induction m with
  | nil =>
    show alookup [(k, v)] q = _
    rw [alookup_cons]
    by_cases hq : q = k
    · subst hq
      rw [if_pos rfl]
    · rw [if_neg (fun hc => hq hc.symm), if_neg hq]
  | cons kv m' ih =>
    obtain ⟨k', v'⟩ := kv
    rw [show dinsert ((k', v') :: m') k v =
      if k' = k then (k, v) :: m' else (k', v') :: dinsert m' k v from rfl]
    by_cases he : k' = k
    · subst he
      rw [if_pos rfl, alookup_cons, alookup_cons]
      by_cases hq : k' = q
      · rw [if_pos hq, if_pos hq.symm]
      · rw [if_neg hq, if_neg (fun hc => hq hc.symm), if_neg hq]
    · rw [if_neg he, alookup_cons, alookup_cons]
      by_cases hq : k' = q
      · rw [if_pos hq, if_pos hq, if_neg (fun hc : q = k => he (hq.trans hc))]
      · rw [if_neg hq, if_neg hq, ih]

theorem build_index_go_lookup (fs : List (String × Option (List Char))) :
    ∀ (idx : List (String × String)) (k p : String),
      alookup (build_index.go idx fs) k = some p →
        alookup idx k = some p ∨
        ∃ c, (p, c) ∈ fs ∧ ∃ pid, sniff_program_id c = some pid ∧ lowerStr pid = k := by
  induction fs with
  | nil => intro idx k p h; exact Or.inl h
  | cons qc fs ih =>
    obtain ⟨q, c⟩ := qc
    intro idx k p h
    unfold build_index.go at h
    cases hsn : sniff_program_id c with
    | none =>
      rw [hsn] at h
      rcases ih idx k p h with h1 | ⟨c', hm, pid, hs, hl⟩
      · exact Or.inl h1
      · exact Or.inr ⟨c', List.mem_cons_of_mem _ hm, pid, hs, hl⟩
    | some pid =>
      rw [hsn] at h
      rcases ih _ k p h with h1 | ⟨c', hm, pid', hs, hl⟩
      · rw [alookup_dinsert] at h1
        by_cases hk : k = lowerStr pid
        · rw [if_pos hk] at h1
          cases h1
          exact Or.inr ⟨c, List.mem_cons_self _ _, pid, hsn, hk.symm⟩
        · rw [if_neg hk] at h1
          exact Or.inl h1
      · exact Or.inr ⟨c', List.mem_cons_of_mem _ hm, pid', hs, hl⟩

/-- C3: when `parse_repo` succeeds, every output edge's `to_file` is
exactly the program-index lookup of its lowercased target (present iff
the key is in the index), the output edges are the concatenated raw edges
of all parsed files in order (none dropped), and every index entry maps
the lowercased sniffed identifier of one of the repository's files to
that file's path. -/
theorem C3_resolution (files : List (String × Option (List Char)))
    (structs : List (String × ParseState)) (edges : List ResolvedEdge)
    (h : parse_repo files = .ok (structs, edges)) :
    (∀ e ∈ edges, e.to_file = alookup (build_index files) (lowerStr e.to_program)) ∧
    edges.map (fun e => e.toCallEdge) = (structs.map (fun pr => pr.2.calls)).flatten ∧
    (∀ k p, alookup (build_index files) k = some p →
      ∃ c, (p, c) ∈ files ∧ ∃ pid, sniff_program_id c = some pid ∧ lowerStr pid = k) := by
  have hre : edges = resolveAll (build_index files) structs := by
    unfold parse_repo at h
    cases hp : parseAll files with
    | error e => rw [hp] at h; cases h
    | ok s =>
      rw [hp] at h
      cases h
      rfl
  refine ⟨?_, ?_, ?_⟩
  · intro e he
    rw [hre] at he
    unfold resolveAll at he
    obtain ⟨raw, -, hmap⟩ := List.mem_map.mp he
    subst hmap
    rfl
  · rw [hre]
    unfold resolveAll
    rw [List.map_map]
    exact List.map_id _
  · intro k p hk
    rcases build_index_go_lookup files [] k p hk with h1 | h1
    · cases h1
    · exact h1

def c3Files : List (String × Option (List Char)) :=
  [("a.cbl", some ("PROCEDURE DIVISION.\nP.\nCALL \"B\".\nCALL \"Z\".".toList)),
   ("b.cbl", some ("PROGRAM-ID. B.".toList))]

def c3Structs : List (String × ParseState) :=
  [("a.cbl",
    ⟨"a", ["PROCEDURE"], [],
      [("P", [⟨"CALL", "B", 3⟩, ⟨"CALL", "Z", 4⟩])],
      [⟨"a.cbl", "P", 3, "B"⟩, ⟨"a.cbl", "P", 4, "Z"⟩],
      some "PROCEDURE", none, some "P"⟩),
   ("b.cbl", ⟨"B", [], [], [], [], none, none, none⟩)]

def c3Edges : List ResolvedEdge :=
  [⟨⟨"a.cbl", "P", 3, "B"⟩, some "b.cbl"⟩, ⟨⟨"a.cbl", "P", 4, "Z"⟩, none⟩]

/-- C3 witness: the resolution theorem applied to a concrete two-file
repository — the edge whose target `B` is declared by `b.cbl` resolves to
that path, the edge targeting the undeclared `Z` stays unresolved, and
the raw edge list is kept intact. -/
theorem C3_witness :
    (∀ e ∈ c3Edges, e.to_file = alookup (build_index c3Files) (lowerStr e.to_program)) ∧
    c3Edges.map (fun e => e.toCallEdge) =
      (c3Structs.map (fun pr => pr.2.calls)).flatten := by
  have h := C3_resolution c3Files c3Structs c3Edges rfl
  exact ⟨h.1, h.2.1⟩

def c1Files : List (String × Option (List Char)) :=
  [("a.cbl", none), ("b.cbl", some ("PROGRAM-ID. B.".toList))]

/-- C1 (claim refuted by the code as written): `CobolParser.parse` calls
`read_text` with no exception handling, so one unreadable file makes the
whole `parse_repo` run raise — no structure and no edges are produced for
any file, readable ones included — whereas the same repository without
the unreadable file parses fine.  The spec's intent (soft per-file
degradation, as `sniff_program_id` does) is not what this pass does. -/
theorem C1_unreadable_file_aborts_run :
    parse_repo c1Files = .error () ∧
    (parse_repo [("b.cbl", some ("PROGRAM-ID. B.".toList))]).toOption.isSome = true := by
  exact ⟨rfl, rfl⟩
